/-
  Verification of the XAFS pre-edge subtraction and normalization code
  (web/xafs_preedge.py) against its natural-language specification.

  Shallow embedding conventions:
  * numpy float arrays are embedded as `List ℚ` (exact rational arithmetic)
    when the relevant code paths only involve finite values, and as
    `List FloatVal` (a tagged type with NaN / +inf / -inf / finite) where
    IEEE non-finite semantics matter (`remove_nans2`).
  * `scipy.polyfit` (= `numpy.polyfit`) is embedded as the exact
    minimum-norm least-squares polynomial fit over ℚ, computed by a rank
    factorization obtained from the reduced row echelon form and exact
    Gauss–Jordan inverses; this is the idealized semantics of the
    LAPACK least-squares solver that numpy calls.
  * Code that raises in Python (indexing an empty array, `np.gradient` on
    an array of fewer than 2 points, broadcasting arrays of different
    lengths) is embedded by `Except PreedgeError`.
  * ℚ division by zero is total (x / 0 = 0) in Lean, whereas numpy emits
    a warning and produces inf/nan entries; no theorem below depends on
    the numeric value of an entry produced by a division by zero.
-/
import Mathlib

section XafsPreedge

/- Batteries marks `Rat.add`, `Rat.mul`, `Rat.sub`, `Rat.inv` as
irreducible, which blocks elaborator-side evaluation of concrete rational
arithmetic; the kernel ignores reducibility, so restoring the default
reducibility locally lets `decide` evaluate the embedded programs on
concrete inputs. -/
attribute [local semireducible] Rat.add Rat.mul Rat.sub Rat.inv

/-- Model of an IEEE double for the purposes of `remove_nans2`: a value is
NaN, +inf, -inf, or a finite number (embedded as a rational). -/
inductive FloatVal where
  | nan : FloatVal
  | inf : FloatVal
  | ninf : FloatVal
  | finite : ℚ → FloatVal
deriving DecidableEq

/-- IEEE `==` semantics: NaN compares unequal to everything (including
itself); +inf == +inf; -inf == -inf; finite values compare as numbers.
This is the semantics of numpy elementwise `==` used at lines 113/117/121/125
of xafs_preedge.py (`a == np.inf`, `a == np.nan`). -/
def floatEq : FloatVal → FloatVal → Bool
  | .inf, .inf => true
  | .ninf, .ninf => true
  | .finite q, .finite q' => decide (q = q')
  | _, _ => false

/-- `np.isnan` on the FloatVal model. -/
def isnanF : FloatVal → Bool
  | .nan => true
  | _ => false

/-- `np.isinf` on the FloatVal model: true for +inf and -inf. -/
def isinfF : FloatVal → Bool
  | .inf => true
  | .ninf => true
  | _ => false

/-- The elementwise tests a numpy array participates in inside
`remove_nans2`: `np.isinf`, `np.isnan`, `x == np.inf`, `x == np.nan`.
Bundled so that `remove_nans2` can be stated once and instantiated both at
`FloatVal` (true IEEE semantics) and at ℚ (all-finite data, where every
test is constantly false). -/
structure FloatOps (α : Type) where
  isinf : α → Bool
  isnan : α → Bool
  eqInf : α → Bool
  eqNan : α → Bool

/-- FloatOps at `FloatVal`: `eqInf v` is `v == np.inf` (true only for +inf),
and `eqNan v` is `v == np.nan`, which is false for every `v` because NaN
never compares equal (the central defect of `remove_nans2`). -/
def floatValOps : FloatOps FloatVal where
  isinf := isinfF
  isnan := isnanF
  eqInf := fun v => floatEq v .inf
  eqNan := fun v => floatEq v .nan

/-- FloatOps at ℚ: rationals model finite doubles only, so `isinf`,
`isnan`, `x == np.inf` and `x == np.nan` are all constantly false. -/
def ratOps : FloatOps ℚ where
  isinf := fun _ => false
  isnan := fun _ => false
  eqInf := fun _ => false
  eqNan := fun _ => false

/-- `np.where(p(a))[0]`: the (sorted) list of indices of `l` whose entry
satisfies `p`. -/
def whereIdx {α : Type} (p : α → Bool) (l : List α) : List ℕ :=
  (l.enum.filter (fun q => p q.2)).map (fun q => q.1)

/-- Helper for `np_delete`, carrying the index of the head of the
remaining list. -/
def np_deleteAux {α : Type} (bad : List ℕ) : ℕ → List α → List α
  | _, [] => []
  | i, x :: xs =>
    if i ∈ bad then np_deleteAux bad (i + 1) xs
    else x :: np_deleteAux bad (i + 1) xs

/-- `np.delete(l, bad)`: remove the elements of `l` whose position occurs
in `bad`. Out-of-range positions are ignored (the behaviour of the numpy
versions this code targets, which ignored out-of-bound obj entries with a
deprecation warning). -/
def np_delete {α : Type} (l : List α) (bad : List ℕ) : List α :=
  np_deleteAux bad 0 l

/-- Lines 108–129 of xafs_preedge.py (`remove_nans2`), generic over the
elementwise float tests. Each of the four steps recomputes `bad` from the
ORIGINAL input array but deletes from the already-shrunk working pair —
exactly as the source does. -/
def remove_nans2Gen {α : Type} (ops : FloatOps α) (a b : List α) :
    List α × List α :=
  if a.any ops.isinf || b.any ops.isinf || a.any ops.isnan || b.any ops.isnan then
    let ab := (a, b)
    let ab := if a.any ops.isinf then
        let bad := whereIdx ops.eqInf a
        (np_delete ab.1 bad, np_delete ab.2 bad)
      else ab
    let ab := if b.any ops.isinf then
        let bad := whereIdx ops.eqInf b
        (np_delete ab.1 bad, np_delete ab.2 bad)
      else ab
    let ab := if a.any ops.isnan then
        let bad := whereIdx ops.eqNan a
        (np_delete ab.1 bad, np_delete ab.2 bad)
      else ab
    let ab := if b.any ops.isnan then
        let bad := whereIdx ops.eqNan b
        (np_delete ab.1 bad, np_delete ab.2 bad)
      else ab
    ab
  else (a, b)

/-- `remove_nans2` on arrays that may contain NaN and ±inf. -/
def remove_nans2 (a b : List FloatVal) : List FloatVal × List FloatVal :=
  remove_nans2Gen floatValOps a b

/-- `remove_nans2` specialized to all-finite (rational) data, as used at
line 210 of `preedge`; with no non-finite entries the top-level test is
false and the pair is returned unchanged. -/
def remove_nans2Q (a b : List ℚ) : List ℚ × List ℚ :=
  remove_nans2Gen ratOps a b

/-- C1: refutation at a concrete input. The claim states that every index
at which either array holds NaN or an infinity is removed from both
arrays. On `a = [nan], b = [1.0]` the source enters its removal branch
(`np.any(np.isnan(a))` is true) but computes `bad = np.where(a == np.nan)`,
which is empty because NaN never compares equal; the NaN pair is retained.
Likewise `a = [-inf], b = [1.0]` is retained because only `a == np.inf`
(positive infinity) is ever tested. The code contradicts its own docstring
("removes NAN and INF from 2 arrays"). -/
theorem remove_nans2_keeps_nan_and_ninf :
    remove_nans2 [FloatVal.nan] [FloatVal.finite 1] =
      ([FloatVal.nan], [FloatVal.finite 1]) ∧
    remove_nans2 [FloatVal.ninf] [FloatVal.finite 1] =
      ([FloatVal.ninf], [FloatVal.finite 1]) := by
  constructor <;> rfl

/-- Deleting positions yields a sublist of the input. -/
theorem np_deleteAux_sublist {α : Type} (bad : List ℕ) :
    ∀ (i : ℕ) (l : List α), (np_deleteAux bad i l).Sublist l := by
  intro i l
  induction l generalizing i with
  | nil => simp [np_deleteAux]
  | cons x xs ih =>
    simp only [np_deleteAux]
    by_cases h : i ∈ bad
    · simp only [h, if_true]
      exact (ih (i + 1)).cons x
    · simp only [h, if_false]
      exact (ih (i + 1)).cons₂ x

/-- Deleting the same positions from two equal-length lists keeps their
lengths equal. -/
theorem np_deleteAux_length_eq {α β : Type} (bad : List ℕ) :
    ∀ (i : ℕ) (a : List α) (b : List β), a.length = b.length →
      (np_deleteAux bad i a).length = (np_deleteAux bad i b).length := by
  intro i a
  induction a generalizing i with
  | nil =>
    intro b hb
    cases b with
    | nil => simp [np_deleteAux]
    | cons y ys => simp at hb
  | cons x xs ih =>
    intro b hb
    cases b with
    | nil => simp at hb
    | cons y ys =>
      simp only [List.length_cons, Nat.succ.injEq] at hb
      simp only [np_deleteAux]
      by_cases h : i ∈ bad
      · simp only [h, if_true]
        exact ih (i + 1) ys hb
      · simp only [h, if_false, List.length_cons]
        exact congrArg Nat.succ (ih (i + 1) ys hb)

/-- Deleting the same positions from two equal-length lists commutes with
zipping them. -/
theorem np_deleteAux_zip {α β : Type} (bad : List ℕ) :
    ∀ (i : ℕ) (a : List α) (b : List β), a.length = b.length →
      (np_deleteAux bad i a).zip (np_deleteAux bad i b) =
        np_deleteAux bad i (a.zip b) := by
  intro i a
  induction a generalizing i with
  | nil =>
    intro b hb
    simp [np_deleteAux]
  | cons x xs ih =>
    intro b hb
    cases b with
    | nil => simp at hb
    | cons y ys =>
      simp only [List.length_cons, Nat.succ.injEq] at hb
      simp only [np_deleteAux, List.zip_cons_cons]
      by_cases h : i ∈ bad
      · simp only [h, if_true]
        exact ih (i + 1) ys hb
      · simp only [h, if_false, List.zip_cons_cons]
        rw [ih (i + 1) ys hb]
        rfl

/-- The invariant carried across the four deletion steps of
`remove_nans2`: both components have equal length, and their zip is a
sublist of the zip of the original pair (each retained pair comes from
one original index, in order). -/
def PairedFrom {α : Type} (a b : List α) (ab : List α × List α) : Prop :=
  ab.1.length = ab.2.length ∧ (ab.1.zip ab.2).Sublist (a.zip b)

theorem pairedFrom_delete {α : Type} {a b : List α}
    {ab : List α × List α} (bad : List ℕ) (h : PairedFrom a b ab) :
    PairedFrom a b (np_delete ab.1 bad, np_delete ab.2 bad) := by
  obtain ⟨hlen, hsub⟩ := h
  refine ⟨np_deleteAux_length_eq bad 0 _ _ hlen, ?_⟩
  have hz := np_deleteAux_zip bad 0 ab.1 ab.2 hlen
  simp only [np_delete, hz]
  exact (np_deleteAux_sublist bad 0 (ab.1.zip ab.2)).trans hsub

theorem pairedFrom_ite_delete {α : Type} {a b : List α}
    {ab : List α × List α} (c : Bool) (bad : List ℕ) (h : PairedFrom a b ab) :
    PairedFrom a b
      (if c then (np_delete ab.1 bad, np_delete ab.2 bad) else ab) := by
  cases c with
  | false => simpa using h
  | true => simpa using pairedFrom_delete bad h

/-- C5: for every pair of equal-length input arrays, `remove_nans2`
returns two arrays of equal length, and every retained output pair
`(a'[i], b'[i])` originates from a single common index of the original
inputs, in the original relative order (the zipped output is a sublist of
the zipped input). This holds despite the index-misalignment defect in the
source (later deletion steps compute `bad` from the original array but
delete from the already-shrunk pair), because each step removes the same
positions from both working arrays. -/
theorem remove_nans2_pairing (a b : List FloatVal)
    (h : a.length = b.length) :
    ((remove_nans2 a b).1).length = ((remove_nans2 a b).2).length ∧
      (((remove_nans2 a b).1).zip ((remove_nans2 a b).2)).Sublist
        (a.zip b) := by
  have hbase : PairedFrom a b (a, b) := ⟨h, List.Sublist.refl _⟩
  have hres : PairedFrom a b (remove_nans2 a b) := by
    unfold remove_nans2 remove_nans2Gen
    by_cases htop :
        (a.any floatValOps.isinf || b.any floatValOps.isinf ||
          a.any floatValOps.isnan || b.any floatValOps.isnan) = true
    · simp only [htop, if_true]
      exact pairedFrom_ite_delete _ _
        (pairedFrom_ite_delete _ _
          (pairedFrom_ite_delete _ _
            (pairedFrom_ite_delete _ _ hbase)))
    · simp only [Bool.not_eq_true] at htop
      simp only [htop, Bool.false_eq_true, if_false]
      exact hbase
  exact hres

/-- Witness for C5 at a concrete input containing an infinity. -/
theorem remove_nans2_pairing_witness :
    ([FloatVal.inf, FloatVal.finite 2] : List FloatVal).length =
        ([FloatVal.finite 5, FloatVal.finite 6] : List FloatVal).length ∧
      ((remove_nans2 [FloatVal.inf, FloatVal.finite 2]
          [FloatVal.finite 5, FloatVal.finite 6]).1).length =
        ((remove_nans2 [FloatVal.inf, FloatVal.finite 2]
          [FloatVal.finite 5, FloatVal.finite 6]).2).length := by
  refine ⟨by decide, ?_⟩
  exact (remove_nans2_pairing [FloatVal.inf, FloatVal.finite 2]
    [FloatVal.finite 5, FloatVal.finite 6] (by decide)).1

/-- Python `min(list)` on a nonempty list of rationals ([] gives 0; the
source raises there, and every use below is guarded to nonempty input). -/
def listMinQ : List ℚ → ℚ
  | [] => 0
  | x :: xs => xs.foldl min x

/-- Python `max(list)` on a nonempty list of rationals ([] gives 0). -/
def listMaxQ : List ℚ → ℚ
  | [] => 0
  | x :: xs => xs.foldl max x

theorem foldl_min_le_start (xs : List ℚ) :
    ∀ a : ℚ, xs.foldl min a ≤ a := by
  induction xs with
  | nil => intro a; simp
  | cons x xs ih =>
    intro a
    simpa using le_trans (ih (min a x)) (min_le_left a x)

theorem foldl_min_le_mem (xs : List ℚ) :
    ∀ (a x : ℚ), x ∈ xs → xs.foldl min a ≤ x := by
  induction xs with
  | nil => intro a x hx; simp at hx
  | cons y ys ih =>
    intro a x hx
    rcases List.mem_cons.mp hx with h | h
    · subst h
      simpa using le_trans (foldl_min_le_start ys (min a x)) (min_le_right a x)
    · simpa using ih (min a y) x h

theorem listMinQ_le_of_mem {l : List ℚ} {x : ℚ} (hx : x ∈ l) :
    listMinQ l ≤ x := by
  cases l with
  | nil => simp at hx
  | cons y ys =>
    rcases List.mem_cons.mp hx with h | h
    · subst h; exact foldl_min_le_start ys x
    · exact foldl_min_le_mem ys y x h

theorem start_le_foldl_max (xs : List ℚ) :
    ∀ a : ℚ, a ≤ xs.foldl max a := by
  induction xs with
  | nil => intro a; simp
  | cons x xs ih =>
    intro a
    simpa using le_trans (le_max_left a x) (ih (max a x))

theorem mem_le_foldl_max (xs : List ℚ) :
    ∀ (a x : ℚ), x ∈ xs → x ≤ xs.foldl max a := by
  induction xs with
  | nil => intro a x hx; simp at hx
  | cons y ys ih =>
    intro a x hx
    rcases List.mem_cons.mp hx with h | h
    · subst h
      simpa using le_trans (le_max_right a x) (start_le_foldl_max ys (max a x))
    · simpa using ih (max a y) x h

theorem le_listMaxQ_of_mem {l : List ℚ} {x : ℚ} (hx : x ∈ l) :
    x ≤ listMaxQ l := by
  cases l with
  | nil => simp at hx
  | cons y ys =>
    rcases List.mem_cons.mp hx with h | h
    · subst h; exact start_le_foldl_max ys x
    · exact mem_le_foldl_max ys y x h

/-- One iteration of the mutation loop of `remove_dups` (lines 64–71 of
xafs_preedge.py): for dup index `i`, subtract from `arr[i]` the largest of
`tiny`, `frac*|arr[i]-arr[i-1]|` (if `i > 0`) and `frac*|arr[i+1]-arr[i]|`
(if `i` is not last); the neighbours are read from the CURRENT (already
partially mutated) array, as in the source. -/
def remove_dupsStep (tiny frac : ℚ) (arr : List ℚ) (i : ℕ) : List ℚ :=
  let t := [tiny]
  let t := if 0 < i then t ++ [frac * |arr.getD i 0 - arr.getD (i - 1) 0|] else t
  let t := if i < arr.length - 1 then
      t ++ [frac * |arr.getD (i + 1) 0 - arr.getD i 0|] else t
  let dx := listMaxQ t
  arr.set i (arr.getD i 0 - dx)

/-- Lines 56–73 of xafs_preedge.py (`remove_dups`): the dup indices are
computed ONCE from the input (`abs(arr[:-1] - arr[1:]) < tiny`), then the
mutation loop runs over them in order. Defaults in the source are
`tiny = 1e-8`, `frac = 0.02`. -/
def remove_dups (arr : List ℚ) (tiny frac : ℚ) : List ℚ :=
  let dups := (List.range (arr.length - 1)).filter
    (fun i => decide (|arr.getD i 0 - arr.getD (i + 1) 0| < tiny))
  dups.foldl (remove_dupsStep tiny frac) arr

/-- C9: refutation at a concrete input. `[0, 5e-9]` is strictly
increasing with no duplicate entries (and, being rational, no NaN), yet
`remove_dups` with the default `tiny = 1e-8`, `frac = 0.02` perturbs it:
the adjacent gap `5e-9` is below `tiny`, so index 0 is treated as a dup
and becomes `-1e-8`. The claimed no-op property fails. -/
theorem remove_dups_perturbs_strictly_increasing :
    (0 : ℚ) < 5 / 1000000000 ∧
      remove_dups [(0 : ℚ), 5 / 1000000000] (1 / 100000000) (1 / 50) ≠
        [(0 : ℚ), 5 / 1000000000] := by
  constructor
  · decide
  · decide

/-- C9 (amended): if every adjacent gap of the array is at least `tiny`
in absolute value, then `remove_dups` is the identity, and consequently it
is idempotent on such arrays. (The original claim's hypothesis — strictly
increasing with no exact duplicates — is not enough: a gap smaller than
`tiny` is still perturbed, as the counterexample shows.) -/
theorem remove_dups_id_of_gaps (arr : List ℚ) (tiny frac : ℚ)
    (h : ∀ i < arr.length - 1,
      tiny ≤ |arr.getD i 0 - arr.getD (i + 1) 0|) :
    remove_dups arr tiny frac = arr ∧
      remove_dups (remove_dups arr tiny frac) tiny frac =
        remove_dups arr tiny frac := by
  have hfil : (List.range (arr.length - 1)).filter
      (fun i => decide (|arr.getD i 0 - arr.getD (i + 1) 0| < tiny)) = [] := by
    apply List.filter_eq_nil_iff.mpr
    intro i hi
    have hlt : i < arr.length - 1 := List.mem_range.mp hi
    simpa using not_lt.mpr (h i hlt)
  have hid : remove_dups arr tiny frac = arr := by
    unfold remove_dups
    rw [hfil]
    rfl
  exact ⟨hid, by rw [hid, hid]⟩

/-- Witness for the amended C9 at a concrete input with gaps ≥ tiny. -/
theorem remove_dups_id_of_gaps_witness :
    remove_dups [(0 : ℚ), 1, 2] (1 / 100000000) (1 / 50) = [(0 : ℚ), 1, 2] := by
  exact (remove_dups_id_of_gaps [(0 : ℚ), 1, 2] (1 / 100000000) (1 / 50)
    (by decide)).1

/-- Dot product of two rational vectors. -/
def dotQ (u v : List ℚ) : ℚ := (List.zipWith (· * ·) u v).sum

/-- Matrix-vector product (matrix as list of rows). -/
def matVecQ (A : List (List ℚ)) (v : List ℚ) : List ℚ := A.map (dotQ v)

/-- Matrix-matrix product. -/
def matMulQ (A B : List (List ℚ)) : List (List ℚ) :=
  let Bt := B.transpose
  A.map (fun row => Bt.map (dotQ row))

/-- Divide a row through by its entry at column `c`. -/
def scaleRowQ (row : List ℚ) (c : ℕ) : List ℚ :=
  let p := row.getD c 0
  row.map (fun x => x / p)

/-- Subtract a multiple of the (normalized) pivot row so that column `c`
of `row` becomes zero. -/
def elimRowQ (prow : List ℚ) (c : ℕ) (row : List ℚ) : List ℚ :=
  let f := row.getD c 0
  List.zipWith (fun x p => x - f * p) row prow

/-- Reduced row echelon form by Gaussian elimination with exact rational
arithmetic; `fuel` bounds the number of columns processed, `r` is the next
pivot row, `c` the current column. Returns the reduced matrix and the list
of pivot columns (ascending). -/
def rrefGo : ℕ → ℕ → ℕ → List (List ℚ) → List (List ℚ) × List ℕ
  | 0, _, _, M => (M, [])
  | fuel + 1, r, c, M =>
    if c < (M.headD []).length then
      match (List.range M.length).find?
          (fun i => decide (r ≤ i) && !((M.getD i []).getD c 0 == 0)) with
      | none => rrefGo fuel r (c + 1) M
      | some i =>
        let Mi := M.getD i []
        let Msw := (M.set i (M.getD r [])).set r Mi
        let prow := scaleRowQ (Msw.getD r []) c
        let M1 := (List.range M.length).map (fun j =>
          if j = r then prow else elimRowQ prow c (Msw.getD j []))
        let res := rrefGo fuel (r + 1) (c + 1) M1
        (res.1, c :: res.2)
    else (M, [])

/-- Reduced row echelon form of a matrix with its pivot columns. -/
def rrefQ (M : List (List ℚ)) : List (List ℚ) × List ℕ :=
  rrefGo (M.headD []).length 0 0 M

/-- Inverse of an invertible square rational matrix by Gauss-Jordan
elimination on the matrix augmented with the identity (returns garbage on
a singular input; every use below inverts a Gram matrix of a full-rank
factor, which is invertible). -/
def matInvQ (A : List (List ℚ)) : List (List ℚ) :=
  let n := A.length
  let aug := (List.range n).map (fun i =>
    (A.getD i []) ++ (List.range n).map (fun j => if j = i then (1 : ℚ) else 0))
  let R := (rrefGo (2 * n) 0 0 aug).1
  R.map (fun row => row.drop n)

/-- Moore-Penrose pseudoinverse of a rational matrix via the full-rank
factorization `A = C F` read off the RREF: `C` is the pivot columns of
`A`, `F` the nonzero rows of the RREF, and
`A⁺ = Fᵀ (F Fᵀ)⁻¹ (Cᵀ C)⁻¹ Cᵀ`. -/
def pinvQ (A : List (List ℚ)) : List (List ℚ) :=
  let rp := rrefQ A
  let r := rp.2.length
  if r = 0 then
    (List.range (A.headD []).length).map (fun _ => A.map (fun _ => (0 : ℚ)))
  else
    let C := A.map (fun row => rp.2.map (fun c => row.getD c 0))
    let F := rp.1.take r
    let Ft := F.transpose
    let Ct := C.transpose
    matMulQ (matMulQ (matMulQ Ft (matInvQ (matMulQ F Ft)))
      (matInvQ (matMulQ Ct C))) Ct

/-- `scipy.polyfit(x, y, deg)` (= `numpy.polyfit`): least-squares fit of a
polynomial of degree `deg`, returning `deg + 1` coefficients with the
highest power first. Embedded as the exact minimum-norm least-squares
solution `V⁺ y` for the Vandermonde matrix `V`, the idealized semantics
of the underlying LAPACK solver (numpy raises on empty input; the two
call sites in `preedge` always pass at least one point). -/
def polyfit (x y : List ℚ) (deg : ℕ) : List ℚ :=
  let V := x.map (fun xi => (List.range (deg + 1)).map (fun j => xi ^ (deg - j)))
  matVecQ (pinvQ V) y

example : polyfit [0, 1] [1, 1] 1 = [0, 1] := by decide
example : polyfit [0, 1, 2, 3] [1, 1, 1, 1] 3 = [0, 0, 0, 1] := by decide
example : polyfit [0, 1, 2] [1, 3, 5] 1 = [2, 1] := by decide

/-- Lines 10–16 of xafs_preedge.py (`index_of`): index of the array at or
below `value`; 0 if `value < min(array)`, otherwise the largest index
whose entry is ≤ `value`. (Python raises on an empty array via `min`;
every call below is guarded to nonempty input, on which this total
version agrees.) -/
def index_of (arrval : List ℚ) (value : ℚ) : ℕ :=
  if value < listMinQ arrval then 0
  else ((List.range arrval.length).filter
    (fun i => decide (arrval.getD i 0 ≤ value))).foldl max 0

/-- Lines 18–21 of xafs_preedge.py (`index_nearest`):
`np.abs(array - value).argmin()`, the first index minimizing the absolute
difference (numpy's argmin returns the first minimizer). -/
def index_nearest (array : List ℚ) (value : ℚ) : ℕ :=
  (List.range array.length).foldl
    (fun best i =>
      if |array.getD i 0 - value| < |array.getD best 0 - value| then i
      else best) 0

/-- `np.gradient` with unit spacing: one-sided differences at the two
ends, central differences in the interior. (numpy raises on arrays of
fewer than 2 entries; `preedge` below guards that case.) -/
def npGradient (a : List ℚ) : List ℚ :=
  (List.range a.length).map (fun i =>
    if i = 0 then a.getD 1 0 - a.getD 0 0
    else if i = a.length - 1 then
      a.getD (a.length - 1) 0 - a.getD (a.length - 2) 0
    else (a.getD (i + 1) 0 - a.getD (i - 1) 0) / 2)

/-- Line 178 of xafs_preedge.py: `dmu = np.gradient(mu)/np.gradient(energy)`. -/
def dmuOf (energy mu : List ℚ) : List ℚ :=
  List.zipWith (· / ·) (npGradient mu) (npGradient energy)

/-- Line 180 of xafs_preedge.py:
`high_deriv_pts = np.where(dmu > max(dmu)*0.05)[0]`. -/
def highDerivPts (energy mu : List ℚ) : List ℕ :=
  let dmu := dmuOf energy mu
  (List.range dmu.length).filter
    (fun i => decide (dmu.getD i 0 > listMaxQ dmu * (1 / 20)))

/-- The local-support test of lines 184–185: `i+1 in high_deriv_pts and
i-1 in high_deriv_pts`. In Python `i-1` is `-1` when `i = 0`, which is
never a member of the (nonnegative) index array, so the test is encoded
as `1 ≤ i` together with membership of `i - 1`. -/
def threeWayOk (pts : List ℕ) (i : ℕ) : Bool :=
  decide ((i + 1) ∈ pts) && decide (1 ≤ i) && decide ((i - 1) ∈ pts)

/-- One iteration of the selection loop (lines 183–186): take index `i`
as the new best exactly when its derivative strictly exceeds the current
best AND it passes the local-support test. -/
def deriveStep (dmu : List ℚ) (pts : List ℕ) (st : ℕ × ℚ) (i : ℕ) : ℕ × ℚ :=
  if decide (dmu.getD i 0 > st.2) && threeWayOk pts i then (i, dmu.getD i 0)
  else st

/-- The selection loop of lines 181–186: scan the candidate indices in
order, keeping the first index of strictly maximal derivative among those
passing the local-support test; the state starts at `(0, 0)`. -/
def deriveE0Best (energy mu : List ℚ) : ℕ × ℚ :=
  let dmu := dmuOf energy mu
  let pts := highDerivPts energy mu
  pts.foldl (deriveStep dmu pts) (0, (0 : ℚ))

/-- Lines 178–188 of xafs_preedge.py: the derivative-based edge estimate
`e0 = energy[idmu_max]` (index 0 when no candidate passes the
local-support test). -/
def deriveE0 (energy mu : List ℚ) : ℚ :=
  energy.getD (deriveE0Best energy mu).1 0

/-- The branch condition of line 176:
`e0 is None or e0 < energy[0] or e0 > energy[-1]`, evaluated on the
de-duplicated energy array of line 174. -/
def needDerive (en : List ℚ) (e0a : Option ℚ) : Bool :=
  match e0a with
  | none => true
  | some v => decide (v < en.headD 0) || decide (v > en.getLastD 0)

/-- The energy array `preedge` works with after lines 174–177: one
`remove_dups` pass always (line 174), and a second one when the edge is
to be derived (line 177). Defaults `tiny = 1e-8`, `frac = 0.02`. -/
def sanitizedEnergy (energy : List ℚ) (e0a : Option ℚ) : List ℚ :=
  let en := remove_dups energy (1 / 100000000) (1 / 50)
  if needDerive en e0a then remove_dups en (1 / 100000000) (1 / 50) else en

/-- Python slice `l[a:b]` for 0 ≤ a, b. -/
def listSlice {α : Type} (l : List α) (a b : ℕ) : List α :=
  (l.take b).drop a

/-- Lines 204–207 (and identically 214–217) of xafs_preedge.py: resolve a
fit window `[lo, hi]` (absolute energies) to an index range
`p1 = index_of(energy, lo)`, `p2 = index_nearest(energy, hi)`, widening to
`p2 = min(len(energy), p1 + 2)` when `p2 - p1 < 2`. -/
def fitIndexRange (energy : List ℚ) (lo hi : ℚ) : ℕ × ℕ :=
  let p1 := index_of energy lo
  let p2 := index_nearest energy hi
  let p2 := if (p2 : ℤ) - (p1 : ℤ) < 2 then min energy.length (p1 + 2) else p2
  (p1, p2)

/-- The edge-energy value `e0` holds after lines 176–188: the supplied
value when it is inside the (line-174 de-duplicated) array's ends,
otherwise the derivative-based estimate computed on the twice
de-duplicated array. -/
def preedgeE0v (energy mu : List ℚ) (e0a : Option ℚ) : ℚ :=
  if needDerive (remove_dups energy (1 / 100000000) (1 / 50)) e0a then
    deriveE0 (sanitizedEnergy energy e0a) mu
  else e0a.getD 0

/-- Line 190 of xafs_preedge.py: `ie0 = index_nearest(energy, e0)`. -/
def preedgeIe0 (energy mu : List ℚ) (e0a : Option ℚ) : ℕ :=
  index_nearest (sanitizedEnergy energy e0a) (preedgeE0v energy mu e0a)

/-- Lines 194–197 of xafs_preedge.py: default `norm2` to
`max(energy) - e0`, reinterpret a negative `norm2` as
`max(energy) - e0 - norm2`, then clamp to at most `max(energy) - e0`. -/
def resolveNorm2 (emax e0 : ℚ) (norm2a : Option ℚ) : ℚ :=
  let n2 := norm2a.getD (emax - e0)
  let n2 := if n2 < 0 then emax - e0 - n2 else n2
  min n2 (emax - e0)

/-- The dictionary returned by `preedge` (lines 229–233). -/
structure PreedgeResult where
  e0 : ℚ
  edge_step : ℚ
  norm : List ℚ
  pre_edge : List ℚ
  post_edge : List ℚ
  norm_coefs : List ℚ
  nvict : ℤ
  nnorm : ℕ
  norm1 : ℚ
  norm2 : ℚ
  pre1 : ℚ
  pre2 : ℚ
  precoefs : List ℚ
deriving DecidableEq

/-- The ways `preedge` can raise in Python: indexing/min/max on an empty
energy array; `np.gradient` on fewer than 2 points (reached only when the
edge must be derived); elementwise broadcasting of `mu` against `energy`
when the lengths differ. -/
inductive PreedgeError where
  | emptyEnergy : PreedgeError
  | lengthMismatch : PreedgeError
  | tooFewPoints : PreedgeError
deriving DecidableEq

/-- Lines 174–235 of xafs_preedge.py (`preedge`), total core, assuming the
guards hoisted into `preedge` have passed. Source defaults: `e0 = None`,
`step = None`, `nnorm = 3`, `nvict = 0`, `pre1 = None`, `pre2 = -50`,
`norm1 = 100`, `norm2 = None`. The two in-place swaps (lines 199–202) are
written pointwise. -/
def preedgeCore (energy mu : List ℚ) (e0a step : Option ℚ) (nnorm0 : ℕ)
    (nvict : ℤ) (pre1a : Option ℚ) (pre2a norm1a : ℚ) (norm2a : Option ℚ) :
    PreedgeResult :=
  let en := sanitizedEnergy energy e0a
  let nnorm := max (min nnorm0 5) 1
  let ie0 := preedgeIe0 energy mu e0a
  let e0 := en.getD ie0 0
  let emin := listMinQ en
  let emax := listMaxQ en
  let pre1 := pre1a.getD (emin - e0)
  let norm2 := resolveNorm2 emax e0 norm2a
  let pre1 := max pre1 (emin - e0)
  let pre1s := if pre1 > pre2a then pre2a else pre1
  let pre2s := if pre1 > pre2a then pre1 else pre2a
  let norm1s := if norm1a > norm2 then norm2 else norm1a
  let norm2s := if norm1a > norm2 then norm1a else norm2
  let pq := fitIndexRange en (pre1s + e0) (pre2s + e0)
  let omu := List.zipWith (fun m e => m * e ^ nvict) mu en
  let exmx := remove_nans2Q (listSlice en pq.1 pq.2) (listSlice omu pq.1 pq.2)
  let precoefs := polyfit exmx.1 exmx.2 1
  let pre_edge := en.map
    (fun e => (precoefs.getD 0 0 * e + precoefs.getD 1 0) * e ^ (-nvict))
  let qq := fitIndexRange en (norm1s + e0) (norm2s + e0)
  let coefs := polyfit (listSlice en qq.1 qq.2) (listSlice omu qq.1 qq.2) nnorm
  let norm_coefs := coefs.reverse
  let post_edge := en.map
    (fun e => (norm_coefs.enum.map
      (fun p => p.2 * e ^ ((p.1 : ℤ) - nvict))).sum)
  let edge_step := step.getD (post_edge.getD ie0 0 - pre_edge.getD ie0 0)
  let norm := List.zipWith (fun m p => (m - p) / edge_step) mu pre_edge
  { e0 := e0, edge_step := edge_step, norm := norm, pre_edge := pre_edge,
    post_edge := post_edge, norm_coefs := norm_coefs, nvict := nvict,
    nnorm := nnorm, norm1 := norm1s, norm2 := norm2s, pre1 := pre1s,
    pre2 := pre2s, precoefs := precoefs }

/-- `preedge` with the Python raising behaviour made explicit: an empty
energy array raises (line 176 `energy[0]` / line 193 `min(energy)`);
`np.gradient` raises on fewer than 2 points when the edge must be derived
(line 178); elementwise operations on `mu` raise when its length differs
from the energy array's (lines 178/209/228). Otherwise the computation of
lines 174–235 runs to completion — the source contains no further raise
points: both fit windows are always nonempty, and a zero edge step is
divided by silently. -/
def preedge (energy mu : List ℚ) (e0a step : Option ℚ) (nnorm0 : ℕ)
    (nvict : ℤ) (pre1a : Option ℚ) (pre2a norm1a : ℚ) (norm2a : Option ℚ) :
    Except PreedgeError PreedgeResult :=
  if energy.isEmpty then .error .emptyEnergy
  else if mu.length ≠ energy.length then .error .lengthMismatch
  else if needDerive (remove_dups energy (1 / 100000000) (1 / 50)) e0a
      && decide (energy.length < 2) then .error .tooFewPoints
  else .ok (preedgeCore energy mu e0a step nnorm0 nvict pre1a pre2a norm1a norm2a)

/-- A fold whose step always returns either the accumulator or the list
element stays below any bound satisfied by the start and all elements. -/
theorem foldl_lt_of_step_mem {n : ℕ} (f : ℕ → ℕ → ℕ)
    (hf : ∀ st i, f st i = st ∨ f st i = i) :
    ∀ (l : List ℕ) (st : ℕ), st < n → (∀ x ∈ l, x < n) → l.foldl f st < n := by
  intro l
  induction l with
  | nil => intro st hst _; simpa using hst
  | cons x xs ih =>
    intro st hst hall
    simp only [List.foldl_cons]
    have hx : x < n := hall x (List.mem_cons_self x xs)
    have hst' : f st x < n := by
      rcases hf st x with h | h <;> rw [h] <;> assumption
    exact ih (f st x) hst' (fun y hy => hall y (List.mem_cons_of_mem x hy))

theorem index_of_lt_length (arrval : List ℚ) (value : ℚ)
    (h : arrval ≠ []) : index_of arrval value < arrval.length := by
  have hn : 0 < arrval.length := List.length_pos.mpr h
  unfold index_of
  split
  · exact hn
  · apply foldl_lt_of_step_mem (fun a b => max a b)
      (fun st i => by rcases Nat.le_total st i with h' | h'
                      · exact Or.inr (max_eq_right h')
                      · exact Or.inl (max_eq_left h'))
    · exact hn
    · intro x hx
      exact List.mem_range.mp (List.mem_of_mem_filter hx)

theorem index_nearest_lt_length (array : List ℚ) (value : ℚ)
    (h : array ≠ []) : index_nearest array value < array.length := by
  have hn : 0 < array.length := List.length_pos.mpr h
  unfold index_nearest
  apply foldl_lt_of_step_mem
    (fun best i =>
      if |array.getD i 0 - value| < |array.getD best 0 - value| then i else best)
    (fun st i => by by_cases hc : |array.getD i 0 - value| < |array.getD st 0 - value|
                    · exact Or.inr (if_pos hc)
                    · exact Or.inl (if_neg hc))
  · exact hn
  · intro x hx
    exact List.mem_range.mp hx

/-- C6 (amended): for a nonempty array, the resolved fit window starts at
a valid index and spans at least 2 samples UNLESS its widened upper index
is clipped at the array length (when the lower index is the last sample,
only 1 sample remains — the original claim's unconditional "at least 2
samples" fails there). -/
theorem fitIndexRange_spans (energy : List ℚ) (lo hi : ℚ)
    (h : energy ≠ []) :
    (fitIndexRange energy lo hi).1 < energy.length ∧
      (2 ≤ (fitIndexRange energy lo hi).2 - (fitIndexRange energy lo hi).1 ∨
        (fitIndexRange energy lo hi).2 = energy.length) := by
  have hp1 := index_of_lt_length energy lo h
  unfold fitIndexRange
  set p1 := index_of energy lo with hp1def
  set p2 := index_nearest energy hi with hp2def
  simp only
  constructor
  · exact hp1
  · split
    · rcases Nat.le_total energy.length (p1 + 2) with hle | hle
      · right
        exact min_eq_left hle
      · left
        rw [min_eq_right hle]
        omega
    · rename_i hcond
      left
      omega

/-- Witness for the amended C6 at a concrete window. -/
theorem fitIndexRange_spans_witness :
    (fitIndexRange [(0 : ℚ), 1, 2] 0 2).1 < 3 ∧
      (2 ≤ (fitIndexRange [(0 : ℚ), 1, 2] 0 2).2 -
          (fitIndexRange [(0 : ℚ), 1, 2] 0 2).1 ∨
        (fitIndexRange [(0 : ℚ), 1, 2] 0 2).2 = 3) := by
  exact fitIndexRange_spans [(0 : ℚ), 1, 2] 0 2 (by decide)

set_option maxRecDepth 100000 in
/-- C6: refutation at a concrete invocation of `preedge`. With
`energy = [0..4]`, supplied edge 0 and the source defaults
`norm1 = 100`, `norm2 = None`, the resolved post-edge window is
`norm1 = 4`, `norm2 = 100` (after the defensive swap), and its index
range is `[4, 5)` — a single sample, not at least 2: the widening
`p2 = min(len(energy), p1 + 2)` is clipped at the array length. `preedge`
still returns a record for this invocation. -/
theorem preedge_window_single_sample :
    (preedge [0, 1, 2, 3, 4] [1, 1, 1, 1, 1] (some 0) (some 1) 3 0 none
        (-50) 100 none).toOption.map (fun r => (r.e0, r.norm1, r.norm2)) =
      some (0, 4, 100) ∧
    fitIndexRange [(0 : ℚ), 1, 2, 3, 4] (4 + 0) (100 + 0) = (4, 5) ∧
    ¬ 2 ≤ 5 - 4 := by
  refine ⟨by decide, by decide, by decide⟩

theorem remove_dupsStep_length (tiny frac : ℚ) (arr : List ℚ) (i : ℕ) :
    (remove_dupsStep tiny frac arr i).length = arr.length := by
  unfold remove_dupsStep
  exact List.length_set arr i _

theorem foldl_remove_dupsStep_length (tiny frac : ℚ) :
    ∀ (ds : List ℕ) (arr : List ℚ),
      (ds.foldl (remove_dupsStep tiny frac) arr).length = arr.length := by
  intro ds
  induction ds with
  | nil => intro arr; rfl
  | cons d ds ih =>
    intro arr
    simp only [List.foldl_cons]
    rw [ih, remove_dupsStep_length]

/-- `remove_dups` preserves the array length. -/
theorem remove_dups_length (arr : List ℚ) (tiny frac : ℚ) :
    (remove_dups arr tiny frac).length = arr.length := by
  unfold remove_dups
  exact foldl_remove_dupsStep_length tiny frac _ arr

theorem sanitizedEnergy_length (energy : List ℚ) (e0a : Option ℚ) :
    (sanitizedEnergy energy e0a).length = energy.length := by
  simp only [sanitizedEnergy]
  split
  · rw [remove_dups_length, remove_dups_length]
  · rw [remove_dups_length]

theorem sanitizedEnergy_ne_nil (energy : List ℚ) (e0a : Option ℚ)
    (h : energy ≠ []) : sanitizedEnergy energy e0a ≠ [] := by
  intro hc
  apply h
  have := sanitizedEnergy_length energy e0a
  rw [hc] at this
  exact List.eq_nil_of_length_eq_zero this.symm

/-- Inverting a successful run of `preedge`: the guards passed and the
result is the core computation. -/
theorem preedge_ok_elim {energy mu : List ℚ} {e0a step : Option ℚ}
    {nnorm0 : ℕ} {nvict : ℤ} {pre1a : Option ℚ} {pre2a norm1a : ℚ}
    {norm2a : Option ℚ} {r : PreedgeResult}
    (hok : preedge energy mu e0a step nnorm0 nvict pre1a pre2a norm1a norm2a =
      .ok r) :
    energy ≠ [] ∧ mu.length = energy.length ∧
      r = preedgeCore energy mu e0a step nnorm0 nvict pre1a pre2a norm1a norm2a := by
  unfold preedge at hok
  by_cases h1 : energy.isEmpty
  · rw [if_pos h1] at hok
    cases hok
  · rw [if_neg h1] at hok
    by_cases h2 : mu.length ≠ energy.length
    · rw [if_pos h2] at hok
      cases hok
    · rw [if_neg h2] at hok
      by_cases h3 : (needDerive (remove_dups energy (1 / 100000000) (1 / 50)) e0a
          && decide (energy.length < 2)) = true
      · rw [if_pos h3] at hok
        cases hok
      · rw [if_neg h3] at hok
        injection hok with h
        refine ⟨fun hc => ?_, not_ne_iff.mp h2, h.symm⟩
        rw [hc] at h1
        exact h1 rfl

/-- The only raise points of `preedge` are the three guards: whenever the
energy array is nonempty, `mu` has the same length, and at least 2 points
are available when the edge must be derived, the pipeline runs to
completion and returns the full record — in particular no fit window,
however small, and no edge step, however degenerate, raises. -/
theorem preedge_runs (energy mu : List ℚ) (e0a step : Option ℚ)
    (nnorm0 : ℕ) (nvict : ℤ) (pre1a : Option ℚ) (pre2a norm1a : ℚ)
    (norm2a : Option ℚ) (h1 : energy ≠ []) (hm : mu.length = energy.length)
    (h2 : needDerive (remove_dups energy (1 / 100000000) (1 / 50)) e0a = true →
      2 ≤ energy.length) :
    preedge energy mu e0a step nnorm0 nvict pre1a pre2a norm1a norm2a =
      .ok (preedgeCore energy mu e0a step nnorm0 nvict pre1a pre2a norm1a norm2a) := by
  unfold preedge
  rw [if_neg, if_neg, if_neg]
  · intro hc
    rw [Bool.and_eq_true, decide_eq_true_eq] at hc
    exact absurd (h2 hc.1) (by omega)
  · exact not_ne_iff.mpr hm
  · simp [h1]

set_option maxRecDepth 4000 in
theorem preedgeCore_e0 (energy mu : List ℚ) (e0a step : Option ℚ)
    (nnorm0 : ℕ) (nvict : ℤ) (pre1a : Option ℚ) (pre2a norm1a : ℚ)
    (norm2a : Option ℚ) :
    (preedgeCore energy mu e0a step nnorm0 nvict pre1a pre2a norm1a norm2a).e0 =
      (sanitizedEnergy energy e0a).getD (preedgeIe0 energy mu e0a) 0 := rfl

set_option maxRecDepth 4000 in
theorem preedgeCore_edge_step_some (energy mu : List ℚ) (e0a : Option ℚ)
    (s : ℚ) (nnorm0 : ℕ) (nvict : ℤ) (pre1a : Option ℚ) (pre2a norm1a : ℚ)
    (norm2a : Option ℚ) :
    (preedgeCore energy mu e0a (some s) nnorm0 nvict pre1a pre2a norm1a
      norm2a).edge_step = s := rfl

set_option maxRecDepth 4000 in
theorem preedgeCore_norm2 (energy mu : List ℚ) (e0a step : Option ℚ)
    (nnorm0 : ℕ) (nvict : ℤ) (pre1a : Option ℚ) (pre2a norm1a : ℚ)
    (norm2a : Option ℚ) :
    (preedgeCore energy mu e0a step nnorm0 nvict pre1a pre2a norm1a
      norm2a).norm2 =
    (if norm1a > resolveNorm2 (listMaxQ (sanitizedEnergy energy e0a))
        ((sanitizedEnergy energy e0a).getD (preedgeIe0 energy mu e0a) 0) norm2a
      then norm1a
      else resolveNorm2 (listMaxQ (sanitizedEnergy energy e0a))
        ((sanitizedEnergy energy e0a).getD (preedgeIe0 energy mu e0a) 0)
        norm2a) := rfl

/-- A negative supplied `norm2` resolves (lines 194–197) to exactly
`max(energy) - e0`: the reinterpretation `max - e0 - norm2` overshoots the
top of the data and is clipped by the final clamp. -/
theorem resolveNorm2_neg (emax e0 v : ℚ) (hneg : v < 0) :
    resolveNorm2 emax e0 (some v) = emax - e0 := by
  unfold resolveNorm2
  simp only [Option.getD_some]
  rw [if_pos hneg]
  exact min_eq_right (by linarith)

set_option maxRecDepth 100000 in
/-- C2: refutation at a concrete input. With constant `mu`, the pre-edge
line and the post-edge cubic both reproduce the constant, so the derived
edge step `post_edge[ie0] - pre_edge[ie0]` is exactly 0 — yet `preedge`
returns a record (numpy divides by zero with only a warning); no
`DegenerateStepError` exists anywhere in the source. -/
theorem preedge_zero_derived_step_returns_ok :
    (preedge [0, 1, 2, 3, 4] [1, 1, 1, 1, 1] (some 0) none 3 0 none (-50) 0
        none).toOption.map (fun r => r.edge_step) = some 0 := by
  decide

/-- C2 (amended): a zero edge step — here supplied explicitly — does not
raise: whenever the input passes the only real guards (nonempty energy,
matching lengths, at least 2 points when the edge must be derived),
`preedge` returns a record whose `edge_step` field is 0, and the
normalization is computed by dividing by that zero. -/
theorem preedge_zero_step_silent (energy mu : List ℚ) (e0a : Option ℚ)
    (nnorm0 : ℕ) (nvict : ℤ) (pre1a : Option ℚ) (pre2a norm1a : ℚ)
    (norm2a : Option ℚ) (h1 : energy ≠ [])
    (hm : mu.length = energy.length)
    (h2 : needDerive (remove_dups energy (1 / 100000000) (1 / 50)) e0a = true →
      2 ≤ energy.length) :
    ∃ r, preedge energy mu e0a (some 0) nnorm0 nvict pre1a pre2a norm1a
        norm2a = .ok r ∧ r.edge_step = 0 := by
  refine ⟨_, preedge_runs energy mu e0a (some 0) nnorm0 nvict pre1a pre2a
    norm1a norm2a h1 hm h2, ?_⟩
  exact preedgeCore_edge_step_some energy mu e0a 0 nnorm0 nvict pre1a pre2a
    norm1a norm2a

/-- Witness for the amended C2 at a concrete input. -/
theorem preedge_zero_step_silent_witness :
    ∃ r, preedge [(0 : ℚ), 1, 2] [5, 5, 5] (some 1) (some 0) 3 0 none (-50)
        100 none = .ok r ∧ r.edge_step = 0 := by
  exact preedge_zero_step_silent [(0 : ℚ), 1, 2] [5, 5, 5] (some 1) 3 0 none
    (-50) 100 none (by decide) (by decide) (by decide)

set_option maxRecDepth 100000 in
/-- C3: refutation at a concrete input. With `energy = [0..4]`, supplied
edge 0, `norm1 = 0` and `norm2 = -1`, the claim demands a resolved upper
bound of `max(energy) - e0 - norm2 = 4 - 0 - (-1) = 5`, but the record
holds `norm2 = 4`: line 197 clamps the reinterpreted value back down to
`max(energy) - e0`. -/
theorem preedge_neg_norm2_counterexample :
    (preedge [0, 1, 2, 3, 4] [3, 3, 3, 3, 3] (some 0) (some 1) 3 0 none
        (-50) 0 (some (-1))).toOption.map (fun r => (r.e0, r.norm2)) =
      some (0, 4) ∧
    listMaxQ (sanitizedEnergy [0, 1, 2, 3, 4] (some 0)) = 4 ∧
    (4 : ℚ) ≠ 4 - 0 - (-1) := by
  refine ⟨by decide, by decide, by decide⟩

/-- C3 (amended): a negative supplied `norm2` is first reinterpreted as
`max(energy) - e0 - norm2`, but that value exceeds `max(energy) - e0` and
is immediately clamped back to it (line 197); after the defensive swap
with `norm1`, the `norm2` of the returned record is therefore
`max(norm1, max(energy) - e0)` — never the claimed
`max(energy) - e0 - norm2`. -/
theorem preedge_neg_norm2_resolution {energy mu : List ℚ}
    {e0a step : Option ℚ} {nnorm0 : ℕ} {nvict : ℤ} {pre1a : Option ℚ}
    {pre2a norm1a : ℚ} {norm2a : Option ℚ} {r : PreedgeResult} {v : ℚ}
    (hv : norm2a = some v) (hneg : v < 0)
    (hok : preedge energy mu e0a step nnorm0 nvict pre1a pre2a norm1a
      norm2a = .ok r) :
    r.norm2 = max norm1a (listMaxQ (sanitizedEnergy energy e0a) - r.e0) := by
  obtain ⟨h1, hm, hr⟩ := preedge_ok_elim hok
  subst hr
  rw [preedgeCore_norm2, preedgeCore_e0, hv,
    resolveNorm2_neg _ _ _ hneg]
  rcases le_or_lt norm1a
      (listMaxQ (sanitizedEnergy energy e0a) -
        (sanitizedEnergy energy e0a).getD (preedgeIe0 energy mu e0a) 0) with
    hle | hlt
  · rw [if_neg (not_lt.mpr hle), max_eq_right hle]
  · rw [if_pos hlt, max_eq_left hlt.le]

/-- Witness for the amended C3 at a concrete input. -/
theorem preedge_neg_norm2_resolution_witness :
    ∃ r, preedge [(0 : ℚ), 1, 2] [1, 2, 3] (some 1) (some 1) 3 0 none (-50)
        0 (some (-5)) = .ok r ∧
      r.norm2 = max 0 (listMaxQ (sanitizedEnergy [(0 : ℚ), 1, 2] (some 1)) -
        r.e0) := by
  have hok := preedge_runs [(0 : ℚ), 1, 2] [1, 2, 3] (some 1) (some 1) 3 0
    none (-50) 0 (some (-5)) (by decide) (by decide) (by decide)
  exact ⟨_, hok, preedge_neg_norm2_resolution rfl (by decide) hok⟩

set_option maxRecDepth 100000 in
/-- C4: refutation at a concrete input. With `energy = [0, 1, 2]`,
supplied edge 0 and the source defaults, the resolved post-edge window is
the index range `[2, 3)` — a single usable point, fewer than
`nnorm + 1 = 4` — yet `preedge` returns a record: no
`InsufficientDataError` exists in the source; the rank-deficient
least-squares fit is performed silently. -/
theorem preedge_small_window_returns_ok :
    fitIndexRange [(0 : ℚ), 1, 2] (2 + 0) (100 + 0) = (2, 3) ∧
    3 - 2 < 3 + 1 ∧
    (preedge [0, 1, 2] [2, 2, 2] (some 0) (some 1) 3 0 none (-50) 100
        none).toOption.map (fun r => (r.norm1, r.norm2)) = some (2, 100) ∧
    (preedge [0, 1, 2] [2, 2, 2] (some 0) (some 1) 3 0 none (-50) 100
        none).toOption.isSome = true := by
  refine ⟨by decide, by decide, by decide, by decide⟩

/-- C4 (amended): `preedge` has no insufficient-data failure mode: under
the only real guards (nonempty energy, matching lengths, at least 2 points
when the edge must be derived) it always returns a record, fitting however
few points a window holds by a rank-deficient least-squares solve. -/
theorem preedge_no_insufficient_data (energy mu : List ℚ)
    (e0a step : Option ℚ) (nnorm0 : ℕ) (nvict : ℤ) (pre1a : Option ℚ)
    (pre2a norm1a : ℚ) (norm2a : Option ℚ) (h1 : energy ≠ [])
    (hm : mu.length = energy.length)
    (h2 : needDerive (remove_dups energy (1 / 100000000) (1 / 50)) e0a = true →
      2 ≤ energy.length) :
    ∃ r, preedge energy mu e0a step nnorm0 nvict pre1a pre2a norm1a norm2a =
      .ok r := by
  exact ⟨_, preedge_runs energy mu e0a step nnorm0 nvict pre1a pre2a norm1a
    norm2a h1 hm h2⟩

/-- Witness for the amended C4 at a concrete input whose post-edge window
holds a single point. -/
theorem preedge_no_insufficient_data_witness :
    ∃ r, preedge [(0 : ℚ), 1, 2] [7, 7, 7] (some 0) (some 1) 3 0 none (-50)
        100 none = .ok r := by
  exact preedge_no_insufficient_data [(0 : ℚ), 1, 2] [7, 7, 7] (some 0)
    (some 1) 3 0 none (-50) 100 none (by decide) (by decide) (by decide)

/-- The `e0` of a successful run is an element of the sanitized energy
array. -/
theorem preedgeCore_e0_mem (energy mu : List ℚ) (e0a step : Option ℚ)
    (nnorm0 : ℕ) (nvict : ℤ) (pre1a : Option ℚ) (pre2a norm1a : ℚ)
    (norm2a : Option ℚ) (h1 : energy ≠ []) :
    (preedgeCore energy mu e0a step nnorm0 nvict pre1a pre2a norm1a
      norm2a).e0 ∈ sanitizedEnergy energy e0a := by
  rw [preedgeCore_e0]
  have hne := sanitizedEnergy_ne_nil energy e0a h1
  have hlt : preedgeIe0 energy mu e0a < (sanitizedEnergy energy e0a).length :=
    index_nearest_lt_length _ _ hne
  rw [List.getD_eq_getElem _ _ hlt]
  exact List.getElem_mem hlt

/-- C7: the edge energy of every record `preedge` returns lies within the
span of the sanitized (de-duplicated) energy array: it is
`energy[index_nearest(energy, e0)]`, an element of that array, hence
between its minimum and maximum. -/
theorem preedge_e0_in_span {energy mu : List ℚ} {e0a step : Option ℚ}
    {nnorm0 : ℕ} {nvict : ℤ} {pre1a : Option ℚ} {pre2a norm1a : ℚ}
    {norm2a : Option ℚ} {r : PreedgeResult}
    (hok : preedge energy mu e0a step nnorm0 nvict pre1a pre2a norm1a
      norm2a = .ok r) :
    listMinQ (sanitizedEnergy energy e0a) ≤ r.e0 ∧
      r.e0 ≤ listMaxQ (sanitizedEnergy energy e0a) := by
  obtain ⟨h1, hm, hr⟩ := preedge_ok_elim hok
  subst hr
  have hmem := preedgeCore_e0_mem energy mu e0a step nnorm0 nvict pre1a pre2a
    norm1a norm2a h1
  exact ⟨listMinQ_le_of_mem hmem, le_listMaxQ_of_mem hmem⟩

/-- Witness for C7 at a concrete input. -/
theorem preedge_e0_in_span_witness :
    ∃ r, preedge [(0 : ℚ), 1, 2] [1, 2, 3] (some 1) (some 1) 3 0 none (-50)
        100 none = .ok r ∧
      listMinQ (sanitizedEnergy [(0 : ℚ), 1, 2] (some 1)) ≤ r.e0 ∧
      r.e0 ≤ listMaxQ (sanitizedEnergy [(0 : ℚ), 1, 2] (some 1)) := by
  have hok := preedge_runs [(0 : ℚ), 1, 2] [1, 2, 3] (some 1) (some 1) 3 0
    none (-50) 100 none (by decide) (by decide) (by decide)
  exact ⟨_, hok, preedge_e0_in_span hok⟩

/-- C10: when a supplied edge energy is in range (so the derivative
branch is not taken), the returned `e0` is
`energy[index_nearest(energy, e0)]` — an element of the de-duplicated
energy array, not necessarily the supplied value. -/
theorem preedge_snaps_supplied_e0 {energy mu : List ℚ} {v : ℚ}
    {step : Option ℚ} {nnorm0 : ℕ} {nvict : ℤ} {pre1a : Option ℚ}
    {pre2a norm1a : ℚ} {norm2a : Option ℚ} {r : PreedgeResult}
    (hin : needDerive (remove_dups energy (1 / 100000000) (1 / 50))
      (some v) = false)
    (hok : preedge energy mu (some v) step nnorm0 nvict pre1a pre2a norm1a
      norm2a = .ok r) :
    r.e0 = (remove_dups energy (1 / 100000000) (1 / 50)).getD
        (index_nearest (remove_dups energy (1 / 100000000) (1 / 50)) v) 0 ∧
      r.e0 ∈ remove_dups energy (1 / 100000000) (1 / 50) := by
  obtain ⟨h1, hm, hr⟩ := preedge_ok_elim hok
  have hsan : sanitizedEnergy energy (some v) =
      remove_dups energy (1 / 100000000) (1 / 50) := by
    simp only [sanitizedEnergy, hin]
    simp
  have he0v : preedgeE0v energy mu (some v) = v := by
    simp only [preedgeE0v, hin]
    simp
  constructor
  · rw [hr, preedgeCore_e0, preedgeIe0, hsan, he0v]
  · rw [hr, ← hsan]
    exact preedgeCore_e0_mem energy mu (some v) step nnorm0 nvict pre1a pre2a
      norm1a norm2a h1

/-- Witness for C10 at a concrete input: the supplied edge 4 lies
strictly between the samples 0 and 10 of `[0, 10, 20]` and the returned
`e0` is the nearest sample 0, not 4. -/
theorem preedge_snaps_supplied_e0_witness :
    ∃ r, preedge [(0 : ℚ), 10, 20] [0, 0, 1] (some 4) (some 1) 3 0 none
        (-50) 100 none = .ok r ∧
      r.e0 = (remove_dups [(0 : ℚ), 10, 20] (1 / 100000000) (1 / 50)).getD
        (index_nearest (remove_dups [(0 : ℚ), 10, 20] (1 / 100000000)
          (1 / 50)) 4) 0 ∧
      r.e0 ∈ remove_dups [(0 : ℚ), 10, 20] (1 / 100000000) (1 / 50) ∧
      r.e0 ≠ 4 := by
  have hok := preedge_runs [(0 : ℚ), 10, 20] [0, 0, 1] (some 4) (some 1) 3 0
    none (-50) 100 none (by decide) (by decide) (by decide)
  obtain ⟨ha, hb⟩ := preedge_snaps_supplied_e0 (by decide) hok
  refine ⟨_, hok, ha, hb, ?_⟩
  rw [ha]
  decide

theorem deriveStep_snd_le (dmu : List ℚ) (pts : List ℕ) (st : ℕ × ℚ)
    (i : ℕ) : st.2 ≤ (deriveStep dmu pts st i).2 := by
  unfold deriveStep
  split
  · rename_i hc
    rw [Bool.and_eq_true, decide_eq_true_eq] at hc
    exact le_of_lt hc.1
  · exact le_refl _

theorem foldl_deriveStep_snd_le (dmu : List ℚ) (pts : List ℕ) :
    ∀ (l : List ℕ) (st : ℕ × ℚ),
      st.2 ≤ (l.foldl (deriveStep dmu pts) st).2 := by
  intro l
  induction l with
  | nil => intro st; exact le_refl _
  | cons i l ih =>
    intro st
    simp only [List.foldl_cons]
    exact le_trans (deriveStep_snd_le dmu pts st i) (ih (deriveStep dmu pts st i))

/-- The scan's final best derivative dominates the derivative at every
candidate passing the local-support test. -/
theorem foldl_deriveStep_ge (dmu : List ℚ) (pts : List ℕ) :
    ∀ (l : List ℕ) (st : ℕ × ℚ) (j : ℕ), j ∈ l →
      threeWayOk pts j = true →
      dmu.getD j 0 ≤ (l.foldl (deriveStep dmu pts) st).2 := by
  intro l
  induction l with
  | nil => intro st j hj; simp at hj
  | cons i l ih =>
    intro st j hj h3
    simp only [List.foldl_cons]
    rcases List.mem_cons.mp hj with h | h
    · subst h
      by_cases hgt : dmu.getD j 0 > st.2
      · have hstep : deriveStep dmu pts st j = (j, dmu.getD j 0) := by
          unfold deriveStep
          rw [if_pos (by rw [Bool.and_eq_true, decide_eq_true_eq]; exact ⟨hgt, h3⟩)]
        rw [hstep]
        exact foldl_deriveStep_snd_le dmu pts l (j, dmu.getD j 0)
      · have hle : dmu.getD j 0 ≤ st.2 := not_lt.mp hgt
        exact le_trans hle (le_trans (deriveStep_snd_le dmu pts st j)
          (foldl_deriveStep_snd_le dmu pts l (deriveStep dmu pts st j)))
    · exact ih (deriveStep dmu pts st i) j h h3

/-- The scan's final state is the initial `(0, 0)` or a candidate passing
the local-support test, carrying its own derivative. -/
theorem foldl_deriveStep_qualifies (dmu : List ℚ) (pts : List ℕ) :
    ∀ (l : List ℕ) (st : ℕ × ℚ), (∀ x ∈ l, x ∈ pts) →
      (st = (0, 0) ∨ (st.1 ∈ pts ∧ threeWayOk pts st.1 = true ∧
        st.2 = dmu.getD st.1 0)) →
      (l.foldl (deriveStep dmu pts) st = (0, 0) ∨
        ((l.foldl (deriveStep dmu pts) st).1 ∈ pts ∧
          threeWayOk pts (l.foldl (deriveStep dmu pts) st).1 = true ∧
          (l.foldl (deriveStep dmu pts) st).2 =
            dmu.getD (l.foldl (deriveStep dmu pts) st).1 0)) := by
  intro l
  induction l with
  | nil => intro st _ hst; exact hst
  | cons i l ih =>
    intro st hsub hst
    simp only [List.foldl_cons]
    apply ih (deriveStep dmu pts st i)
      (fun x hx => hsub x (List.mem_cons_of_mem i hx))
    unfold deriveStep
    split
    · rename_i hc
      rw [Bool.and_eq_true] at hc
      exact Or.inr ⟨hsub i (List.mem_cons_self i l), hc.2, rfl⟩
    · exact hst

/-- If no candidate passes the local-support test, the scan never leaves
`(0, 0)`. -/
theorem deriveE0Best_fallback (en' mu' : List ℚ)
    (hall : ∀ i ∈ highDerivPts en' mu',
      threeWayOk (highDerivPts en' mu') i = false) :
    deriveE0Best en' mu' = (0, 0) := by
  unfold deriveE0Best
  have h : ∀ (l : List ℕ), (∀ i ∈ l,
      threeWayOk (highDerivPts en' mu') i = false) →
      ∀ st : ℕ × ℚ,
        l.foldl (deriveStep (dmuOf en' mu') (highDerivPts en' mu')) st = st := by
    intro l
    induction l with
    | nil => intro _ st; rfl
    | cons i l ih =>
      intro hl st
      simp only [List.foldl_cons]
      have hstep : deriveStep (dmuOf en' mu') (highDerivPts en' mu') st i = st := by
        unfold deriveStep
        rw [hl i (List.mem_cons_self i l), Bool.and_false]
        rfl
      rw [hstep]
      exact ih (fun x hx => hl x (List.mem_cons_of_mem i hx)) st
  exact h _ hall (0, 0)

/-- C8: when no edge energy is supplied, or the supplied one lies outside
the de-duplicated array's ends, `preedge` does not fail: it returns a
record whose `e0` is the (nearest-sample snap of the) derivative-based
estimate `deriveE0`, ignoring any supplied value. Moreover (stated for
all inputs): if no index passes the three-way local-support test the
estimate falls back to the energy at index 0; the selected best
derivative dominates every qualifying candidate's derivative; and the
selected state is either the fallback `(0, 0)` or a qualifying candidate. -/
theorem preedge_derives_e0 (energy mu : List ℚ) (e0a step : Option ℚ)
    (nnorm0 : ℕ) (nvict : ℤ) (pre1a : Option ℚ) (pre2a norm1a : ℚ)
    (norm2a : Option ℚ)
    (hd : needDerive (remove_dups energy (1 / 100000000) (1 / 50)) e0a = true)
    (h1 : energy ≠ []) (hm : mu.length = energy.length)
    (h2 : 2 ≤ energy.length) :
    (∃ r, preedge energy mu e0a step nnorm0 nvict pre1a pre2a norm1a norm2a =
        .ok r ∧
      r.e0 = (sanitizedEnergy energy e0a).getD
        (index_nearest (sanitizedEnergy energy e0a)
          (deriveE0 (sanitizedEnergy energy e0a) mu)) 0) ∧
    (∀ en' mu' : List ℚ, (∀ i ∈ highDerivPts en' mu',
        threeWayOk (highDerivPts en' mu') i = false) →
      deriveE0 en' mu' = en'.getD 0 0) ∧
    (∀ (en' mu' : List ℚ) (j : ℕ), j ∈ highDerivPts en' mu' →
      threeWayOk (highDerivPts en' mu') j = true →
      (dmuOf en' mu').getD j 0 ≤ (deriveE0Best en' mu').2) ∧
    (∀ en' mu' : List ℚ, deriveE0Best en' mu' = (0, 0) ∨
      ((deriveE0Best en' mu').1 ∈ highDerivPts en' mu' ∧
        threeWayOk (highDerivPts en' mu') (deriveE0Best en' mu').1 = true)) := by
  refine ⟨?_, ?_, ?_, ?_⟩
  · refine ⟨_, preedge_runs energy mu e0a step nnorm0 nvict pre1a pre2a norm1a
      norm2a h1 hm (fun _ => h2), ?_⟩
    rw [preedgeCore_e0, preedgeIe0]
    have he0v : preedgeE0v energy mu e0a =
        deriveE0 (sanitizedEnergy energy e0a) mu := by
      simp only [preedgeE0v, hd]
      simp
    rw [he0v]
  · intro en' mu' hall
    unfold deriveE0
    rw [deriveE0Best_fallback en' mu' hall]
  · intro en' mu' j hj h3
    unfold deriveE0Best
    exact foldl_deriveStep_ge (dmuOf en' mu') (highDerivPts en' mu') _ _ j hj h3
  · intro en' mu'
    unfold deriveE0Best
    have := foldl_deriveStep_qualifies (dmuOf en' mu') (highDerivPts en' mu')
      (highDerivPts en' mu') (0, 0) (fun x hx => hx) (Or.inl rfl)
    rcases this with h | h
    · exact Or.inl h
    · exact Or.inr ⟨h.1, h.2.1⟩

/-- Witness for C8 at a concrete input with no supplied edge: the
derivative scan selects index 2 of `[0, 0, 1, 2, 2]` (its predecessor and
successor are also candidates). -/
theorem preedge_derives_e0_witness :
    ∃ r, preedge [(0 : ℚ), 1, 2, 3, 4] [0, 0, 1, 2, 2] none (some 1) 3 0
        none (-50) 0 none = .ok r ∧
      r.e0 = (sanitizedEnergy [(0 : ℚ), 1, 2, 3, 4] none).getD
        (index_nearest (sanitizedEnergy [(0 : ℚ), 1, 2, 3, 4] none)
          (deriveE0 (sanitizedEnergy [(0 : ℚ), 1, 2, 3, 4] none)
            [0, 0, 1, 2, 2])) 0 := by
  exact (preedge_derives_e0 [(0 : ℚ), 1, 2, 3, 4] [0, 0, 1, 2, 2] none
    (some 1) 3 0 none (-50) 0 none (by decide) (by decide) (by decide)
    (by decide)).1

end XafsPreedge
